import Mathlib

/-!
Verification of the positional inverted-index pipeline of the harvest search
engine. Rust source functions from src/indexer.rs, src/query_engine.rs and
src/analyzer.rs are shallowly embedded as executable Lean definitions:
DocIds and positions are modelled as naturals, HashMap / BTreeMap values as
association lists, and imperative loops as structural recursions.
-/

namespace Harvest

/-- A positions map, `HashMap<ObjectId, Vec<usize>>` in the source:
DocId to the list of token positions of the term in that document. -/
abbrev PosMap := List (Nat × List Nat)

/-- Lookup in a positions map; `map.get(&d).unwrap()` in the source, with the
missing-key panic modelled as the empty position list. -/
def lookupPos (m : PosMap) (d : Nat) : List Nat :=
  ((m.find? (fun kv => kv.1 == d)).map Prod.snd).getD []

/-- The key list of a positions map. -/
def posKeys (m : PosMap) : List Nat := m.map Prod.fst

/-- Rust `usize::abs_diff`. -/
def absDiff (a b : Nat) : Nat := (a - b) + (b - a)

/-- Maximum number of DocIds per persisted index document
(`DOCIDS_PER_MONGO_DOCUMENT` in src/indexer.rs). -/
def CHUNK : Nat := 100000

/-- `merge_sorted_lists_dedup` from src/indexer.rs: two-pointer union of two
sorted duplicate-free lists, collapsing equal elements to one occurrence. -/
def merge_sorted_lists_dedup : List Nat → List Nat → List Nat
  | [], listB => listB
  | x :: xs, [] => x :: xs
  | x :: xs, y :: ys =>
    if x < y then x :: merge_sorted_lists_dedup xs (y :: ys)
    else if y < x then y :: merge_sorted_lists_dedup (x :: xs) ys
    else x :: merge_sorted_lists_dedup xs ys

/-- A positional match, `PositionalMatch<T>` from src/query_engine.rs. -/
structure PositionalMatch where
  doc_id : Nat
  position1 : Nat
  position2 : Nat
deriving DecidableEq

/-- Inner scan of `positional_intersect` (src/query_engine.rs lines 72-81):
walk the second position list from the start, collect every position within
window `k` of `p1v`, and break at the first position beyond `p1v` that is out
of the window. -/
def scanPositions (k p1v : Nat) : List Nat → List Nat
  | [] => []
  | p2v :: rest =>
    if absDiff p1v p2v ≤ k then p2v :: scanPositions k p1v rest
    else if p1v < p2v then []
    else scanPositions k p1v rest

/-- Per-document loop of `positional_intersect` (src/query_engine.rs lines
70-93): for each position of the first term, extend the shared buffer `l` by
the inner scan, prune out-of-window entries from its front, and emit one match
per remaining buffer entry. The buffer `l` carries over between iterations,
exactly as in the source. -/
def docPositionLoop (k d : Nat) (ps2 : List Nat) : List Nat → List Nat → List PositionalMatch
  | [], _ => []
  | p1v :: rest, l =>
    ((l ++ scanPositions k p1v ps2).dropWhile (fun x => decide (k < absDiff x p1v))).map
        (fun pos => ⟨d, p1v, pos⟩) ++
      docPositionLoop k d ps2 rest
        ((l ++ scanPositions k p1v ps2).dropWhile (fun x => decide (k < absDiff x p1v)))

/-- `positional_intersect` from src/query_engine.rs: lockstep walk of two
posting lists by DocId; on a common document, run the per-document position
loop. -/
def positional_intersect : List Nat → PosMap → List Nat → PosMap → Nat → List PositionalMatch
  | [], _, _, _, _ => []
  | _ :: _, _, [], _, _ => []
  | d1 :: r1, m1, d2 :: r2, m2, k =>
    if d1 = d2 then
      docPositionLoop k d1 (lookupPos m2 d2) (lookupPos m1 d1) [] ++
        positional_intersect r1 m1 r2 m2 k
    else if d1 < d2 then positional_intersect r1 m1 (d2 :: r2) m2 k
    else positional_intersect (d1 :: r1) m1 r2 m2 k

/-- Insert one matched position into the grouped positions map; models
`new_positions.entry(m.doc_id).or_insert_with(Vec::new).push(m.position2)`
(src/query_engine.rs lines 158-162). -/
def upsertPush (m : PosMap) (d pos : Nat) : PosMap :=
  match m with
  | [] => [(d, [pos])]
  | (d0, ps) :: rest =>
    if d0 = d then (d0, ps ++ [pos]) :: rest
    else (d0, ps) :: upsertPush rest d pos

/-- Group positional matches by document, collecting the `position2` values in
match order (src/query_engine.rs lines 157-163). -/
def groupMatches (ms : List PositionalMatch) : PosMap :=
  ms.foldl (fun acc m => upsertPush acc m.doc_id m.position2) []

/-- Insertion into a sorted list; auxiliary for the model of `Vec::sort`. -/
def insertSorted (x : Nat) : List Nat → List Nat
  | [] => [x]
  | y :: ys => if x ≤ y then x :: y :: ys else y :: insertSorted x ys

/-- Model of `Vec::sort` on DocIds (ascending). -/
def sortAsc (l : List Nat) : List Nat := l.foldr insertSorted []

/-- Key extraction plus sort:
`result = new_positions.keys().cloned().collect(); result.sort()`
(src/query_engine.rs lines 166-167). -/
def sortedKeys (m : PosMap) : List Nat := sortAsc (m.map Prod.fst)

/-- The cascade loop of `QueryEngine::intersect_postings`
(src/query_engine.rs lines 141-171): intersect the carried result with the
next posting list at window 1; return empty on no matches, else carry the
matched documents with their `position2` values as the new effective
positions. -/
def cascadeGo : List Nat × PosMap → List (List Nat × PosMap) → List Nat
  | res, [] => res.1
  | res, p :: rest =>
    if positional_intersect res.1 res.2 p.1 p.2 1 = [] then []
    else
      cascadeGo
        (sortedKeys (groupMatches (positional_intersect res.1 res.2 p.1 p.2 1)),
          groupMatches (positional_intersect res.1 res.2 p.1 p.2 1))
        rest

/-- Scan for the index of the first shortest posting list
(src/query_engine.rs lines 132-137), carrying the best index and its length. -/
def smallestIdxGo : List (List Nat × PosMap) → Nat → Nat → Nat → Nat
  | [], _, best, _ => best
  | p :: ps, i, best, bestLen =>
    if p.1.length < bestLen then smallestIdxGo ps (i + 1) i p.1.length
    else smallestIdxGo ps (i + 1) best bestLen

/-- `smallest_idx` of `QueryEngine::intersect_postings`: index of the first
posting list of minimal length. -/
def smallestIdx : List (List Nat × PosMap) → Nat
  | [] => 0
  | p :: ps => smallestIdxGo (p :: ps) 0 0 p.1.length

/-- `QueryEngine::intersect_postings` (src/query_engine.rs lines 125-174):
empty input gives empty; otherwise seed the cascade with the first shortest
posting list and intersect against the remaining lists in input order. -/
def intersect_postings (pls : List (List Nat × PosMap)) : List Nat :=
  if pls.isEmpty then []
  else cascadeGo (pls.getD (smallestIdx pls) ([], [])) (pls.eraseIdx (smallestIdx pls))

/-- The cascade as the specification states it (spec.md section 4.E): fold
left along the per-term posting lists in query order, seeding with the first
query term's posting list. Stated from the spec's words, for comparison with
`intersect_postings`. -/
def specFoldQueryOrder (pls : List (List Nat × PosMap)) : List Nat :=
  match pls with
  | [] => []
  | p :: rest => cascadeGo p rest

/-- One step of `merge_hashmaps` (src/indexer.rs lines 683-692): on a key
collision append the new positions to the existing list (Occupied), otherwise
add the entry (Vacant). -/
def upsertAppend (m : PosMap) (d : Nat) (ps : List Nat) : PosMap :=
  match m with
  | [] => [(d, ps)]
  | (d0, ps0) :: rest =>
    if d0 = d then (d0, ps0 ++ ps) :: rest
    else (d0, ps0) :: upsertAppend rest d ps

/-- `merge_hashmaps` from src/indexer.rs lines 679-695: fold the second map's
entries into the first. -/
def merge_hashmaps (ma mb : PosMap) : PosMap :=
  mb.foldl (fun acc kv => upsertAppend acc kv.1 kv.2) ma

/-- `postings.chunks(DOCIDS_PER_MONGO_DOCUMENT)` (src/indexer.rs line 348):
split a list into consecutive chunks of at most `n` elements, in the list's
current order. -/
def chunksOf (n : Nat) : List Nat → List (List Nat)
  | [] => []
  | x :: xs => (x :: xs).take n :: chunksOf n (xs.drop (n - 1))
  termination_by l => l.length
  decreasing_by simp [List.length_drop]; omega

/-- A persisted SPIMI block entry, `SpimiDoc` from src/data_models.rs. -/
structure SpimiEntry where
  term : String
  bucket : Nat
  document_frequency : Nat
  postings : List Nat
  positions : PosMap
deriving DecidableEq

/-- The BTreeMap range bound `start_doc..=end_doc` of
`Indexer::persist_block_to_disk` (src/indexer.rs lines 352-358): a key is in
the span of a chunk when it lies between the chunk's first and last DocId. -/
def inSpan (c : List Nat) (k : Nat) : Bool :=
  decide (c.headD 0 ≤ k) && decide (k ≤ c.getLastD 0)

/-- The per-term body of `Indexer::persist_block_to_disk` (src/indexer.rs
lines 341-364): chunk the term's postings in their current order, and write
one entry per chunk whose positions are the BTreeMap range restriction of the
term's positions to the chunk's `first..=last` DocId span, with `bucket`
counting up from 0 and `document_frequency` the chunk length. -/
def persist_term (t : String) (postings : List Nat) (positions : PosMap) :
    List SpimiEntry :=
  (chunksOf CHUNK postings).enum.map fun ic =>
    { term := t
      bucket := ic.1
      document_frequency := ic.2.length
      postings := ic.2
      positions := positions.filter fun kv => inSpan ic.2 kv.1 }

/-- An inverted-index bucket document, `InvertedIndexDoc` from
src/data_models.rs restricted to one term (the document id and term string
are tracked implicitly by the merge model). -/
structure IndexBucket where
  bucket : Nat
  document_frequency : Nat
  postings : List Nat
  positions : PosMap
deriving DecidableEq

/-- Modelled from the spec: `InvertedIndexRepo.append_to_bucket` is declared
in src/db.rs's extension (not present under src/), called from
`Indexer::flush_term_to_db`; per spec.md section 4.D Finalize, appending to an
existing partial bucket extends its postings, extends each corresponding
entry in positions, and increases `document_frequency` by the new postings
count. -/
def append_to_bucket (b : IndexBucket) (postings : List Nat)
    (positions : PosMap) : IndexBucket :=
  { b with
    postings := b.postings ++ postings
    positions := merge_hashmaps b.positions positions
    document_frequency := b.document_frequency + postings.length }

/-- `Indexer::flush_term_to_db` (src/indexer.rs lines 636-674): no-op on
empty postings; append into the pending existing bucket when one is set
(consuming it), else insert a new bucket document; increment the bucket
counter. Returns (bucket counter, pending existing bucket, written buckets). -/
def flush_term_to_db (postings : List Nat) (positions : PosMap)
    (bucket : Nat) (existing : Option IndexBucket) (out : List IndexBucket) :
    Nat × Option IndexBucket × List IndexBucket :=
  if postings = [] then (bucket, existing, out)
  else
    match existing with
    | some b => (bucket + 1, none, out ++ [append_to_bucket b postings positions])
    | none =>
      (bucket + 1, none,
        out ++ [{ bucket := bucket, document_frequency := postings.length,
                  postings := postings, positions := positions }])

/-- Merger state for one active term (src/indexer.rs lines 448-454). -/
structure MergeState where
  acc_postings : List Nat
  acc_positions : PosMap
  bucket : Nat
  existing : Option IndexBucket
  out : List IndexBucket
deriving DecidableEq

/-- One heap-item step of `Indexer::merge_persisted_blocks` for a fixed term
(src/indexer.rs lines 519-544): union-merge the entry's postings into the
accumulator, merge its positions, and when the accumulator reaches CHUNK
split off the first CHUNK DocIds with their positions and flush them. -/
def mergeEntryStep (st : MergeState) (e : List Nat × PosMap) : MergeState :=
  let acc := merge_sorted_lists_dedup st.acc_postings e.1
  let accPos := merge_hashmaps st.acc_positions e.2
  if CHUNK ≤ acc.length then
    match flush_term_to_db (acc.take CHUNK)
        (accPos.filter fun kv => (acc.take CHUNK).contains kv.1)
        st.bucket st.existing st.out with
    | (bucket2, existing2, out2) =>
      ⟨acc.drop CHUNK, accPos.filter fun kv => !(acc.take CHUNK).contains kv.1,
        bucket2, existing2, out2⟩
  else ⟨acc, accPos, st.bucket, st.existing, st.out⟩

/-- Initialization of the merger state for a new active term
(src/indexer.rs lines 476-516): when the term's last existing bucket has room
(fewer than CHUNK postings) the first flush appends into it, else a fresh
bucket follows it; with no existing bucket, start at bucket 0. -/
def mergeInit (lastBucket : Option IndexBucket) : MergeState :=
  match lastBucket with
  | some b =>
    if b.postings.length < CHUNK then ⟨[], [], b.bucket, some b, []⟩
    else ⟨[], [], b.bucket + 1, none, []⟩
  | none => ⟨[], [], 0, none, []⟩

/-- The finalize flush at term change or stream end
(src/indexer.rs lines 566-578): flush whatever remains accumulated. -/
def mergeFinalize (st : MergeState) : List IndexBucket :=
  (flush_term_to_db st.acc_postings st.acc_positions st.bucket st.existing
    st.out).2.2

/-- The merge of the block entries of one term followed by the finalize flush
(src/indexer.rs lines 456-578 restricted to a single term): initialize the
bucket counter and the pending existing bucket from `get_last_bucket`'s
result (append when it has room, lines 476-516), fold the entries in heap
order, then flush the remaining accumulator. Returns the buckets written. -/
def mergeTermRun (lastBucket : Option IndexBucket)
    (entries : List (List Nat × PosMap)) : List IndexBucket :=
  mergeFinalize (entries.foldl mergeEntryStep (mergeInit lastBucket))

/-- A text token, `TextToken` from src/analyzer.rs. -/
structure TextToken where
  term : String
  pos : Nat
deriving DecidableEq

/-- `TextAnalyzer::tokenize` (src/analyzer.rs lines 451-461) applied to the
tokenizer output: attach the enumeration index as the token position. -/
def tokenize (tokens : List String) : List TextToken :=
  tokens.enum.map fun it => ⟨it.2, it.1⟩

/-- `PunctuationStripFilter::filter` (src/analyzer.rs lines 362-387),
parametric in the Rust standard library's trimming function and alphanumeric
test: trim both ends, then keep the token with its original position iff the
trimmed term reaches the minimum length and has an alphanumeric character. -/
def punctuationStripFilter (trim : String → String) (minLength : Nat)
    (hasAlnum : String → Bool) (ts : List TextToken) : List TextToken :=
  ts.filterMap fun t =>
    if decide (minLength ≤ (trim t.term).length) && hasAlnum (trim t.term) then
      some ⟨trim t.term, t.pos⟩
    else none

/-- `LowerCaseTokenFilter::filter` (src/analyzer.rs lines 309-319): rewrite
each term, keeping its position. -/
def lowerCaseTokenFilter (lower : String → String) (ts : List TextToken) :
    List TextToken :=
  ts.map fun t => ⟨lower t.term, t.pos⟩

/-- `NumericTokenFilter::filter` (src/analyzer.rs lines 392-402): keep only
tokens with at least one alphabetic character. -/
def numericTokenFilter (hasAlpha : String → Bool) (ts : List TextToken) :
    List TextToken :=
  ts.filter fun t => hasAlpha t.term

/-- `StopWordTokenFilter::filter` (src/analyzer.rs lines 323-329): drop
stop-word tokens. -/
def stopWordTokenFilter (isStop : String → Bool) (ts : List TextToken) :
    List TextToken :=
  ts.filter fun t => !isStop t.term

/-- `PorterStemmerTokenFilter::filter` (src/analyzer.rs lines 333-343):
rewrite each term to its stem, keeping its position. -/
def porterStemmerTokenFilter (stem : String → String) (ts : List TextToken) :
    List TextToken :=
  ts.map fun t => ⟨stem t.term, t.pos⟩

/-- The analyzer's token-filter pipeline in the order built in `Indexer::new`
(src/indexer.rs lines 97-107): punctuation strip (minimum length 2),
lowercase, numeric drop, stop-word drop, Porter stemmer. -/
def token_filter_pipeline (trim lower stem : String → String)
    (hasAlnum hasAlpha isStop : String → Bool) (ts : List TextToken) :
    List TextToken :=
  porterStemmerTokenFilter stem
    (stopWordTokenFilter isStop
      (numericTokenFilter hasAlpha
        (lowerCaseTokenFilter lower
          (punctuationStripFilter trim 2 hasAlnum ts))))

/-- A fetched inverted-index record as the query path reads it,
`InvertedIndexDoc` from src/data_models.rs (the query uses term, postings and
positions; the fetch cursor's bucket sort is reflected in the list order). -/
structure IndexRecord where
  term : String
  postings : List Nat
  positions : PosMap
deriving DecidableEq

/-- `positions.extend(doc.positions)` on a HashMap (src/query_engine.rs line
222): entries of the second map replace entries of the first on key
collision. -/
def hashExtend (ma mb : PosMap) : PosMap :=
  ma.filter (fun kv => !(mb.map Prod.fst).contains kv.1) ++ mb

/-- The per-term grouping map of `QueryEngine::query`,
`term_posting_and_positions` in src/query_engine.rs lines 211-214. -/
abbrev TermMap := List (String × List Nat × PosMap)

/-- Map lookup on the grouping map. -/
def lookupTerm (m : TermMap) (t : String) : Option (List Nat × PosMap) :=
  (m.find? (fun kv => kv.1 == t)).map Prod.snd

/-- The grouping step of `QueryEngine::query` (src/query_engine.rs lines
216-228): on an existing term extend its postings and positions (Occupied),
else insert the record (Vacant). -/
def upsertRecord (m : TermMap) (r : IndexRecord) : TermMap :=
  match m with
  | [] => [(r.term, r.postings, r.positions)]
  | (t0, pl0, pos0) :: rest =>
    if t0 = r.term then (t0, pl0 ++ r.postings, hashExtend pos0 r.positions) :: rest
    else (t0, pl0, pos0) :: upsertRecord rest r

/-- Group the fetched index documents by term. -/
def buildTermMap (docs : List IndexRecord) : TermMap :=
  docs.foldl upsertRecord []

/-- `QueryEngine::query` after analysis (src/query_engine.rs lines 185-240):
an empty term list returns empty; fetch the index documents whose term is in
the query (the $in filter, given here in the cursor's bucket order); group
them by term; when the number of distinct grouped terms differs from the
number of query terms, return empty; otherwise intersect the per-term posting
lists in query order. -/
def query_model (terms : List String) (index : List IndexRecord) : List Nat :=
  if terms.isEmpty then []
  else
    if (buildTermMap (index.filter fun r => terms.contains r.term)).length ≠
        terms.length then []
    else
      intersect_postings (terms.map fun t =>
        (lookupTerm (buildTermMap (index.filter fun r => terms.contains r.term))
          t).getD ([], []))

end Harvest

namespace Harvest

theorem mem_merge_sorted_lists_dedup (a b : List Nat) (x : Nat) :
    x ∈ merge_sorted_lists_dedup a b ↔ x ∈ a ∨ x ∈ b := by
  induction a, b using merge_sorted_lists_dedup.induct with
  | case1 b => simp [merge_sorted_lists_dedup]
  | case2 x xs => simp [merge_sorted_lists_dedup]
  | case3 x xs y ys hlt ih =>
    simp only [merge_sorted_lists_dedup, if_pos hlt, List.mem_cons, ih]
    tauto
  | case4 x xs y ys hnlt hlt ih =>
    simp only [merge_sorted_lists_dedup, if_neg hnlt, if_pos hlt, List.mem_cons, ih]
    tauto
  | case5 x xs y ys hnlt hnlt2 ih =>
    have hxy : x = y := le_antisymm (le_of_not_lt hnlt2) (le_of_not_lt hnlt)
    simp only [merge_sorted_lists_dedup, if_neg hnlt, if_neg hnlt2, List.mem_cons, ih]
    subst hxy
    tauto

theorem sorted_merge_sorted_lists_dedup (a b : List Nat)
    (ha : a.Sorted (· < ·)) (hb : b.Sorted (· < ·)) :
    (merge_sorted_lists_dedup a b).Sorted (· < ·) := by
  induction a, b using merge_sorted_lists_dedup.induct with
  | case1 b => simpa [merge_sorted_lists_dedup] using hb
  | case2 x xs => simpa [merge_sorted_lists_dedup] using ha
  | case3 x xs y ys hlt ih =>
    rw [List.sorted_cons] at ha
    rw [merge_sorted_lists_dedup, if_pos hlt, List.sorted_cons]
    refine ⟨fun z hz => ?_, ih ha.2 hb⟩
    rcases (mem_merge_sorted_lists_dedup xs (y :: ys) z).mp hz with h | h
    · exact ha.1 z h
    · rcases List.mem_cons.mp h with rfl | h
      · exact hlt
      · exact hlt.trans ((List.sorted_cons.mp hb).1 z h)
  | case4 x xs y ys hnlt hlt ih =>
    rw [List.sorted_cons] at hb
    rw [merge_sorted_lists_dedup, if_neg hnlt, if_pos hlt, List.sorted_cons]
    refine ⟨fun z hz => ?_, ih ha hb.2⟩
    rcases (mem_merge_sorted_lists_dedup (x :: xs) ys z).mp hz with h | h
    · rcases List.mem_cons.mp h with rfl | h
      · exact hlt
      · exact hlt.trans ((List.sorted_cons.mp ha).1 z h)
    · exact hb.1 z h
  | case5 x xs y ys hnlt hnlt2 ih =>
    have hxy : x = y := le_antisymm (le_of_not_lt hnlt2) (le_of_not_lt hnlt)
    rw [List.sorted_cons] at ha hb
    rw [merge_sorted_lists_dedup, if_neg hnlt, if_neg hnlt2, List.sorted_cons]
    refine ⟨fun z hz => ?_, ih ha.2 hb.2⟩
    rcases (mem_merge_sorted_lists_dedup xs ys z).mp hz with h | h
    · exact ha.1 z h
    · exact hxy ▸ hb.1 z h

/-- Claim C6: on strictly ascending duplicate-free inputs,
`merge_sorted_lists_dedup` returns a strictly ascending list whose length is
the cardinality of the union of the two input sets; elements present in both
inputs appear once. -/
theorem C6_merge_dedup_union (a b : List Nat)
    (ha : a.Sorted (· < ·)) (hb : b.Sorted (· < ·)) :
    (merge_sorted_lists_dedup a b).Sorted (· < ·) ∧
    (merge_sorted_lists_dedup a b).length = (a.toFinset ∪ b.toFinset).card ∧
    ∀ x, x ∈ merge_sorted_lists_dedup a b ↔ x ∈ a ∨ x ∈ b := by
  have hsorted := sorted_merge_sorted_lists_dedup a b ha hb
  have hnodup : (merge_sorted_lists_dedup a b).Nodup :=
    hsorted.imp fun h => ne_of_lt h
  refine ⟨hsorted, ?_, fun x => mem_merge_sorted_lists_dedup a b x⟩
  have hset : (merge_sorted_lists_dedup a b).toFinset = a.toFinset ∪ b.toFinset := by
    ext x
    simp [List.mem_toFinset, mem_merge_sorted_lists_dedup]
  rw [← hset, List.toFinset_card_of_nodup hnodup]

/-- Witness for C6 at a concrete input. -/
theorem C6_merge_dedup_union_witness :
    ([1, 3, 5].Sorted (· < ·)) ∧
    ((merge_sorted_lists_dedup [1, 3, 5] [2, 3, 8]).Sorted (· < ·) ∧
      (merge_sorted_lists_dedup [1, 3, 5] [2, 3, 8]).length =
        (([1, 3, 5] : List Nat).toFinset ∪ ([2, 3, 8] : List Nat).toFinset).card ∧
      ∀ x, x ∈ merge_sorted_lists_dedup [1, 3, 5] [2, 3, 8] ↔
        x ∈ ([1, 3, 5] : List Nat) ∨ x ∈ ([2, 3, 8] : List Nat)) :=
  ⟨by decide, C6_merge_dedup_union [1, 3, 5] [2, 3, 8] (by decide) (by decide)⟩

theorem absDiff_comm (a b : Nat) : absDiff a b = absDiff b a := by
  simp [absDiff, Nat.add_comm]

theorem lookupPos_sorted_of_forall (m : PosMap)
    (h : ∀ kv ∈ m, kv.2.Sorted (· ≤ ·)) :
    ∀ e, (lookupPos m e).Sorted (· ≤ ·) := by
  intro e
  unfold lookupPos
  cases hf : m.find? (fun kv => kv.1 == e) with
  | none => simp
  | some kv =>
    have hmem : kv ∈ m := List.mem_of_find?_eq_some hf
    simpa using h kv hmem

theorem scanPositions_subset (k p1v : Nat) :
    ∀ ps2 : List Nat, ∀ p ∈ scanPositions k p1v ps2, p ∈ ps2 := by
  intro ps2
  induction ps2 with
  | nil => simp [scanPositions]
  | cons x rest ih =>
    intro p hp
    rw [scanPositions] at hp
    split at hp
    · rcases List.mem_cons.mp hp with rfl | hp
      · exact List.mem_cons_self _ _
      · exact List.mem_cons_of_mem _ (ih p hp)
    · split at hp
      · exact absurd hp (List.not_mem_nil p)
      · exact List.mem_cons_of_mem _ (ih p hp)

theorem scanPositions_complete (k p1v p2 : Nat) :
    ∀ ps2 : List Nat, ps2.Sorted (· ≤ ·) → p2 ∈ ps2 → absDiff p1v p2 ≤ k →
      p2 ∈ scanPositions k p1v ps2 := by
  intro ps2
  induction ps2 with
  | nil =>
    intro _ h _
    exact absurd h (List.not_mem_nil p2)
  | cons x rest ih =>
    intro hs hmem hk
    rw [List.sorted_cons] at hs
    rw [scanPositions]
    by_cases habs : absDiff p1v x ≤ k
    · rw [if_pos habs]
      rcases List.mem_cons.mp hmem with rfl | hmem
      · exact List.mem_cons_self _ _
      · exact List.mem_cons_of_mem _ (ih hs.2 hmem hk)
    · rw [if_neg habs]
      by_cases hlt : p1v < x
      · exfalso
        rcases List.mem_cons.mp hmem with rfl | hmem
        · exact habs hk
        · have hxle : x ≤ p2 := hs.1 p2 hmem
          simp only [absDiff] at habs hk
          omega
      · rw [if_neg hlt]
        rcases List.mem_cons.mp hmem with rfl | hmem
        · exact absurd hk habs
        · exact ih hs.2 hmem hk

theorem docPositionLoop_sound (k d : Nat) (ps2 : List Nat) :
    ∀ (ps1 l : List Nat), (∀ x ∈ l, x ∈ ps2) →
      ∀ m ∈ docPositionLoop k d ps2 ps1 l,
        m.doc_id = d ∧ ∃ p1 ∈ ps1, ∃ p2 ∈ ps2, absDiff p1 p2 ≤ k := by
  intro ps1
  induction ps1 with
  | nil =>
    intro l _ m hm
    rw [docPositionLoop] at hm
    exact absurd hm (List.not_mem_nil m)
  | cons p1v rest ih =>
    intro l hl m hm
    have hbufmem : ∀ x ∈ (l ++ scanPositions k p1v ps2).dropWhile
        (fun x => decide (k < absDiff x p1v)), x ∈ ps2 := by
      intro x hx
      have hx1 : x ∈ l ++ scanPositions k p1v ps2 :=
        (List.dropWhile_suffix _).subset hx
      rcases List.mem_append.mp hx1 with hx1 | hx1
      · exact hl x hx1
      · exact scanPositions_subset k p1v ps2 x hx1
    rw [docPositionLoop] at hm
    rcases List.mem_append.mp hm with hm | hm
    · rcases List.mem_map.mp hm with ⟨pos, hpos, rfl⟩
      refine ⟨rfl, p1v, List.mem_cons_self _ _, ?_⟩
      have hne : (l ++ scanPositions k p1v ps2).dropWhile
          (fun x => decide (k < absDiff x p1v)) ≠ [] := List.ne_nil_of_mem hpos
      have hhead := List.head_dropWhile_not
        (fun x => decide (k < absDiff x p1v)) (l ++ scanPositions k p1v ps2) hne
      set h0 := ((l ++ scanPositions k p1v ps2).dropWhile
        (fun x => decide (k < absDiff x p1v))).head hne with hh0
      have hwin : absDiff h0 p1v ≤ k := by
        simp only [decide_eq_false_iff_not] at hhead
        omega
      refine ⟨h0, hbufmem h0 (List.head_mem hne), ?_⟩
      rwa [absDiff_comm]
    · have := ih _ hbufmem m hm
      exact ⟨this.1, by
        rcases this.2 with ⟨p1, hp1, rest2⟩
        exact ⟨p1, List.mem_cons_of_mem _ hp1, rest2⟩⟩

theorem docPositionLoop_complete (k d p1 p2 : Nat) (ps2 : List Nat)
    (hs2 : ps2.Sorted (· ≤ ·)) (hp2 : p2 ∈ ps2) (hk : absDiff p1 p2 ≤ k) :
    ∀ (ps1 l : List Nat), p1 ∈ ps1 → docPositionLoop k d ps2 ps1 l ≠ [] := by
  intro ps1
  induction ps1 with
  | nil =>
    intro l h
    exact absurd h (List.not_mem_nil p1)
  | cons p1v rest ih =>
    intro l hp1
    rw [docPositionLoop]
    by_cases hEq : p1 = p1v
    · subst hEq
      intro hcontra
      rcases List.append_eq_nil.mp hcontra with ⟨hmap, _⟩
      have hL2 : (l ++ scanPositions k p1 ps2).dropWhile
          (fun x => decide (k < absDiff x p1)) = [] := List.map_eq_nil_iff.mp hmap
      have hscan : p2 ∈ scanPositions k p1 ps2 :=
        scanPositions_complete k p1 p2 ps2 hs2 hp2 hk
      have hmem1 : p2 ∈ l ++ scanPositions k p1 ps2 := List.mem_append_right _ hscan
      have hsurv : p2 ∈ (l ++ scanPositions k p1 ps2).dropWhile
          (fun x => decide (k < absDiff x p1)) := by
        rw [← List.takeWhile_append_dropWhile
          (p := fun x => decide (k < absDiff x p1)) (l := l ++ scanPositions k p1 ps2)]
          at hmem1
        rcases List.mem_append.mp hmem1 with htk | hdr
        · exfalso
          have hdec := List.mem_takeWhile_imp htk
          simp only [decide_eq_true_eq] at hdec
          rw [absDiff_comm] at hk
          omega
        · exact hdr
      rw [hL2] at hsurv
      exact absurd hsurv (List.not_mem_nil p2)
    · have hp1r : p1 ∈ rest := by
        rcases List.mem_cons.mp hp1 with h | h
        · exact absurd h hEq
        · exact h
      intro hcontra
      rcases List.append_eq_nil.mp hcontra with ⟨_, hrec⟩
      exact ih _ hp1r hrec

theorem mem_docs_positional_intersect (d : Nat)
    (pl1 pl2 : List Nat) (m1 m2 : PosMap) (k : Nat)
    (hm2 : ∀ e, (lookupPos m2 e).Sorted (· ≤ ·))
    (h1 : pl1.Sorted (· < ·)) (h2 : pl2.Sorted (· < ·)) :
    d ∈ (positional_intersect pl1 m1 pl2 m2 k).map PositionalMatch.doc_id ↔
      d ∈ pl1 ∧ d ∈ pl2 ∧ ∃ p1 ∈ lookupPos m1 d, ∃ p2 ∈ lookupPos m2 d,
        absDiff p1 p2 ≤ k := by
  revert hm2 h1 h2
  induction pl1, m1, pl2, m2, k using positional_intersect.induct with
  | case1 m1 pl2 m2 k =>
    intro hm2 h1 h2
    simp [positional_intersect]
  | case2 d1 r1 m1 m2 k =>
    intro hm2 h1 h2
    simp [positional_intersect]
  | case3 r1 m1 d2 r2 m2 k ih =>
    intro hm2 h1 h2
    rw [List.sorted_cons] at h1 h2
    rw [show positional_intersect (d2 :: r1) m1 (d2 :: r2) m2 k =
        docPositionLoop k d2 (lookupPos m2 d2) (lookupPos m1 d2) [] ++
          positional_intersect r1 m1 r2 m2 k from by
      simp [positional_intersect]]
    rw [List.map_append]
    constructor
    · intro hmem
      rcases List.mem_append.mp hmem with hmem | hmem
      · rcases List.mem_map.mp hmem with ⟨m, hm, hd⟩
        have hsound := docPositionLoop_sound k d2 (lookupPos m2 d2)
          (lookupPos m1 d2) [] (by simp) m hm
        have hd1 : d = d2 := by rw [← hd, hsound.1]
        subst hd1
        exact ⟨List.mem_cons_self _ _, List.mem_cons_self _ _, hsound.2⟩
      · have hres := (ih hm2 h1.2 h2.2).mp hmem
        exact ⟨List.mem_cons_of_mem _ hres.1, List.mem_cons_of_mem _ hres.2.1,
          hres.2.2⟩
    · rintro ⟨hd1, hd2, p1, hp1, p2, hp2, hk⟩
      rcases List.mem_cons.mp hd1 with rfl | hd1
      · apply List.mem_append.mpr
        left
        have hne := docPositionLoop_complete k d p1 p2 (lookupPos m2 d)
          (hm2 d) hp2 hk (lookupPos m1 d) [] hp1
        rcases List.exists_mem_of_ne_nil _ hne with ⟨m, hm⟩
        exact List.mem_map.mpr ⟨m, hm,
          (docPositionLoop_sound k d (lookupPos m2 d) (lookupPos m1 d) []
            (by simp) m hm).1⟩
      · have hdgt : d2 < d := h1.1 d hd1
        have hd2r : d ∈ r2 := by
          rcases List.mem_cons.mp hd2 with rfl | h
          · exact absurd hdgt (lt_irrefl d)
          · exact h
        exact List.mem_append.mpr
          (Or.inr ((ih hm2 h1.2 h2.2).mpr ⟨hd1, hd2r, p1, hp1, p2, hp2, hk⟩))
  | case4 d1 r1 m1 d2 r2 m2 k hne hlt ih =>
    intro hm2 h1 h2
    rw [show positional_intersect (d1 :: r1) m1 (d2 :: r2) m2 k =
        positional_intersect r1 m1 (d2 :: r2) m2 k from by
      simp [positional_intersect, hne, hlt]]
    rw [List.sorted_cons] at h1
    rw [ih hm2 h1.2 h2]
    constructor
    · rintro ⟨ha, hb, hc⟩
      exact ⟨List.mem_cons_of_mem _ ha, hb, hc⟩
    · rintro ⟨ha, hb, hc⟩
      rcases List.mem_cons.mp ha with rfl | ha
      · exfalso
        rcases List.mem_cons.mp hb with heq | hb
        · exact hne heq
        · have := (List.sorted_cons.mp h2).1 d hb
          omega
      · exact ⟨ha, hb, hc⟩
  | case5 d1 r1 m1 d2 r2 m2 k hne hnlt ih =>
    intro hm2 h1 h2
    rw [show positional_intersect (d1 :: r1) m1 (d2 :: r2) m2 k =
        positional_intersect (d1 :: r1) m1 r2 m2 k from by
      simp [positional_intersect, hne, hnlt]]
    rw [List.sorted_cons] at h2
    rw [ih hm2 h1 h2.2]
    constructor
    · rintro ⟨ha, hb, hc⟩
      exact ⟨ha, List.mem_cons_of_mem _ hb, hc⟩
    · rintro ⟨ha, hb, hc⟩
      rcases List.mem_cons.mp hb with rfl | hb
      · exfalso
        rcases List.mem_cons.mp ha with heq | ha
        · exact hne heq.symm
        · have := (List.sorted_cons.mp h1).1 d ha
          omega
      · exact ⟨ha, hb, hc⟩

/-- Claim C7: the set of DocIds in the output of `positional_intersect` is
invariant under swapping the two inputs, for sorted posting lists whose
per-document position lists are ascending. -/
theorem C7_docids_symmetric (pl1 pl2 : List Nat) (m1 m2 : PosMap) (k : Nat)
    (h1 : pl1.Sorted (· < ·)) (h2 : pl2.Sorted (· < ·))
    (hm1 : ∀ e, (lookupPos m1 e).Sorted (· ≤ ·))
    (hm2 : ∀ e, (lookupPos m2 e).Sorted (· ≤ ·)) :
    ∀ doc, doc ∈ (positional_intersect pl1 m1 pl2 m2 k).map PositionalMatch.doc_id ↔
      doc ∈ (positional_intersect pl2 m2 pl1 m1 k).map PositionalMatch.doc_id := by
  intro doc
  rw [mem_docs_positional_intersect doc pl1 pl2 m1 m2 k hm2 h1 h2,
      mem_docs_positional_intersect doc pl2 pl1 m2 m1 k hm1 h2 h1]
  constructor
  · rintro ⟨ha, hb, p1, hp1, p2, hp2, hk⟩
    exact ⟨hb, ha, p2, hp2, p1, hp1, by rwa [absDiff_comm]⟩
  · rintro ⟨ha, hb, p2, hp2, p1, hp1, hk⟩
    exact ⟨hb, ha, p1, hp1, p2, hp2, by rwa [absDiff_comm]⟩

/-- Witness for C7 at a concrete input. -/
theorem C7_docids_symmetric_witness :
    (([1, 2] : List Nat).Sorted (· < ·)) ∧
    ∀ doc,
      doc ∈ (positional_intersect [1, 2] [(1, [0]), (2, [3])]
        [2, 3] [(2, [4]), (3, [0])] 1).map PositionalMatch.doc_id ↔
      doc ∈ (positional_intersect [2, 3] [(2, [4]), (3, [0])]
        [1, 2] [(1, [0]), (2, [3])] 1).map PositionalMatch.doc_id :=
  ⟨by decide, C7_docids_symmetric [1, 2] [2, 3] [(1, [0]), (2, [3])]
    [(2, [4]), (3, [0])] 1 (by decide) (by decide)
    (lookupPos_sorted_of_forall _ (by decide))
    (lookupPos_sorted_of_forall _ (by decide))⟩

/-- Claim C3: refuted. `positional_intersect` does not return each in-window
triple exactly once, and can return out-of-window triples: with positions
`[5, 6]` against `[5]` and window 1 the triple `(1, 6, 5)` is emitted twice,
and with positions `[10, 11, 30]` against `[1, 20]` and window 10 the triple
`(1, 30, 1)` is emitted although `absDiff 30 1 = 29 > 10`, because the buffer
`l` is never cleared between outer-loop iterations. -/
theorem C3_duplicate_and_out_of_window :
    (positional_intersect [1] [(1, [5, 6])] [1] [(1, [5])] 1 =
      [⟨1, 5, 5⟩, ⟨1, 6, 5⟩, ⟨1, 6, 5⟩]) ∧
    (⟨1, 30, 1⟩ ∈ positional_intersect [1] [(1, [10, 11, 30])] [1] [(1, [1, 20])] 10 ∧
      10 < absDiff 30 1) := by
  refine ⟨?_, ?_, by decide⟩
  · simp [positional_intersect, docPositionLoop, scanPositions, lookupPos, absDiff]
  · simp [positional_intersect, docPositionLoop, scanPositions, lookupPos, absDiff]

theorem smallestIdxGo_of_min (bestLen : Nat) :
    ∀ (l : List (List Nat × PosMap)) (i best : Nat),
      (∀ q ∈ l, bestLen ≤ q.1.length) → smallestIdxGo l i best bestLen = best := by
  intro l
  induction l with
  | nil =>
    intro i best _
    rfl
  | cons q qs ih =>
    intro i best h
    rw [smallestIdxGo, if_neg (by
      have := h q (List.mem_cons_self _ _)
      omega)]
    exact ih (i + 1) best fun r hr => h r (List.mem_cons_of_mem _ hr)

/-- Claim C1: refuted. The query engine does not fold left along the terms in
query order: `intersect_postings` seeds the cascade with the shortest posting
list. On three terms whose third posting list is shortest, the code returns
document 1 while the spec's query-order left fold returns nothing. -/
theorem C1_counterexample :
    intersect_postings
        [([1, 2], [(1, [1]), (2, [10])]), ([1, 2], [(1, [2]), (2, [11])]),
          ([1], [(1, [0])])] = [1] ∧
      specFoldQueryOrder
        [([1, 2], [(1, [1]), (2, [10])]), ([1, 2], [(1, [2]), (2, [11])]),
          ([1], [(1, [0])])] = [] := by
  constructor <;>
    simp [intersect_postings, specFoldQueryOrder, cascadeGo, smallestIdx,
      smallestIdxGo, groupMatches, upsertPush, sortedKeys, sortAsc, insertSorted,
      positional_intersect, docPositionLoop, scanPositions, lookupPos, absDiff]

/-- Claim C1 (amended): when the first query term's posting list is no longer
than any other's — so the shortest-list seed is the first list — the engine
computes exactly the spec's left fold along the terms in query order, with
window 1 and the matched `position2` values carried as effective positions. -/
theorem C1_fold_left_when_first_smallest (p : List Nat × PosMap)
    (rest : List (List Nat × PosMap))
    (hmin : ∀ q ∈ p :: rest, p.1.length ≤ q.1.length) :
    intersect_postings (p :: rest) = specFoldQueryOrder (p :: rest) := by
  have hidx : smallestIdx (p :: rest) = 0 := by
    rw [smallestIdx]
    exact smallestIdxGo_of_min p.1.length (p :: rest) 0 0 hmin
  rw [intersect_postings, if_neg (by simp), hidx]
  rfl

/-- Witness for the amended C1 at a concrete input. -/
theorem C1_fold_left_when_first_smallest_witness :
    (∀ q ∈ [(([1], [(1, [0])]) : List Nat × PosMap),
        ([1, 2], [(1, [1]), (2, [5])])], ([1] : List Nat).length ≤ q.1.length) ∧
    intersect_postings [([1], [(1, [0])]), ([1, 2], [(1, [1]), (2, [5])])] =
      specFoldQueryOrder [([1], [(1, [0])]), ([1, 2], [(1, [1]), (2, [5])])] :=
  ⟨by decide,
    C1_fold_left_when_first_smallest ([1], [(1, [0])])
      [([1, 2], [(1, [1]), (2, [5])])] (by decide)⟩

theorem lookupPos_cons (d0 : Nat) (ps0 : List Nat) (rest : PosMap) (d : Nat) :
    lookupPos ((d0, ps0) :: rest) d = if d0 = d then ps0 else lookupPos rest d := by
  by_cases h : d0 = d
  · rw [if_pos h]
    unfold lookupPos
    rw [List.find?_cons_of_pos _ (by simpa using h)]
    rfl
  · rw [if_neg h]
    unfold lookupPos
    rw [List.find?_cons_of_neg _ (by simpa using h)]

theorem lookupPos_eq_nil_of_not_mem_keys (d : Nat) :
    ∀ m : PosMap, d ∉ m.map Prod.fst → lookupPos m d = [] := by
  intro m
  induction m with
  | nil => intro _; rfl
  | cons kv rest ih =>
    intro h
    rcases kv with ⟨d0, ps0⟩
    simp only [List.map_cons, List.mem_cons] at h
    push_neg at h
    rw [lookupPos_cons, if_neg (fun he => h.1 he.symm)]
    exact ih h.2

theorem lookupPos_upsertAppend_eq (d : Nat) (ps : List Nat) :
    ∀ m : PosMap, lookupPos (upsertAppend m d ps) d = lookupPos m d ++ ps := by
  intro m
  induction m with
  | nil =>
    rw [upsertAppend, lookupPos_cons, if_pos rfl]
    rfl
  | cons kv rest ih =>
    rcases kv with ⟨d0, ps0⟩
    by_cases h : d0 = d
    · rw [upsertAppend, if_pos h, lookupPos_cons, if_pos h, lookupPos_cons, if_pos h]
    · rw [upsertAppend, if_neg h, lookupPos_cons, if_neg h, lookupPos_cons, if_neg h]
      exact ih

theorem lookupPos_upsertAppend_ne (d0 d : Nat) (ps : List Nat) (h : d0 ≠ d) :
    ∀ m : PosMap, lookupPos (upsertAppend m d0 ps) d = lookupPos m d := by
  intro m
  induction m with
  | nil =>
    rw [upsertAppend, lookupPos_cons, if_neg h]
  | cons kv rest ih =>
    rcases kv with ⟨d1, ps1⟩
    by_cases h1 : d1 = d0
    · rw [upsertAppend, if_pos h1, lookupPos_cons, if_neg (h1 ▸ h), lookupPos_cons,
        if_neg (h1 ▸ h)]
    · rw [upsertAppend, if_neg h1, lookupPos_cons, lookupPos_cons]
      by_cases h2 : d1 = d
      · rw [if_pos h2, if_pos h2]
      · rw [if_neg h2, if_neg h2]
        exact ih

theorem lookupPos_merge_hashmaps (d : Nat) :
    ∀ (mb ma : PosMap), (mb.map Prod.fst).Nodup →
      lookupPos (merge_hashmaps ma mb) d = lookupPos ma d ++ lookupPos mb d := by
  intro mb
  induction mb with
  | nil =>
    intro ma _
    simp [merge_hashmaps, lookupPos]
  | cons kv rest ih =>
    intro ma hnd
    rcases kv with ⟨d0, ps0⟩
    simp only [List.map_cons, List.nodup_cons] at hnd
    have hstep : merge_hashmaps ma ((d0, ps0) :: rest) =
        merge_hashmaps (upsertAppend ma d0 ps0) rest := rfl
    rw [hstep, ih (upsertAppend ma d0 ps0) hnd.2, lookupPos_cons]
    by_cases h : d0 = d
    · subst h
      rw [if_pos rfl, lookupPos_upsertAppend_eq,
        lookupPos_eq_nil_of_not_mem_keys d0 rest hnd.1, List.append_nil]
    · rw [if_neg h, lookupPos_upsertAppend_ne d0 d ps0 h]

/-- Claim C4: refuted. `merge_hashmaps` concatenates the two per-document
position lists in input order: combining sorted contributions `[5]` and `[3]`
for document 1 gives `[5, 3]`, which is not ascending. -/
theorem C4_counterexample :
    (([5] : List Nat).Sorted (· ≤ ·)) ∧ (([3] : List Nat).Sorted (· ≤ ·)) ∧
    lookupPos (merge_hashmaps [(1, [5])] [(1, [3])]) 1 = [5, 3] ∧
    ¬ (lookupPos (merge_hashmaps [(1, [5])] [(1, [3])]) 1).Sorted (· ≤ ·) := by
  decide

/-- Claim C4 (amended): the combined per-document list held by the merger is
the first contribution followed by the second; it is sorted ascending
provided each contribution is sorted and every position of the first
contribution is at most every position of the second. -/
theorem C4_sorted_concat (ma mb : PosMap) (d : Nat)
    (hnd : (mb.map Prod.fst).Nodup)
    (hA : (lookupPos ma d).Sorted (· ≤ ·))
    (hB : (lookupPos mb d).Sorted (· ≤ ·))
    (hcross : ∀ a ∈ lookupPos ma d, ∀ b ∈ lookupPos mb d, a ≤ b) :
    lookupPos (merge_hashmaps ma mb) d = lookupPos ma d ++ lookupPos mb d ∧
    (lookupPos (merge_hashmaps ma mb) d).Sorted (· ≤ ·) := by
  have heq := lookupPos_merge_hashmaps d mb ma hnd
  refine ⟨heq, ?_⟩
  rw [heq, List.Sorted, List.pairwise_append]
  exact ⟨hA, hB, hcross⟩

/-- Witness for the amended C4 at a concrete input. -/
theorem C4_sorted_concat_witness :
    ((([(1, [1, 2])] : PosMap).map Prod.fst).Nodup) ∧
    (lookupPos (merge_hashmaps [(1, [1, 2])] [(1, [3, 4])]) 1 =
        lookupPos [(1, [1, 2])] 1 ++ lookupPos [(1, [3, 4])] 1 ∧
      (lookupPos (merge_hashmaps [(1, [1, 2])] [(1, [3, 4])]) 1).Sorted (· ≤ ·)) :=
  ⟨by decide, C4_sorted_concat [(1, [1, 2])] [(1, [3, 4])] 1 (by decide)
    (by decide) (by decide) (by decide)⟩

theorem chunksOf_decomp (n : Nat) (l : List Nat) :
    ∀ c ∈ chunksOf n l, ∃ pre suf, l = pre ++ (c ++ suf) := by
  induction l using chunksOf.induct n with
  | case1 => simp [chunksOf]
  | case2 x xs ih =>
    intro c hc
    rw [chunksOf] at hc
    rcases List.mem_cons.mp hc with rfl | hc
    · exact ⟨[], (x :: xs).drop n, by rw [List.nil_append, List.take_append_drop]⟩
    · rcases ih c hc with ⟨pre, suf, hps⟩
      refine ⟨x :: (xs.take (n - 1) ++ pre), suf, ?_⟩
      calc x :: xs = x :: (xs.take (n - 1) ++ xs.drop (n - 1)) := by
            rw [List.take_append_drop]
        _ = x :: (xs.take (n - 1) ++ (pre ++ (c ++ suf))) := by rw [hps]
        _ = (x :: (xs.take (n - 1) ++ pre)) ++ (c ++ suf) := by
            simp [List.append_assoc]

theorem chunksOf_length_le (n : Nat) (l : List Nat) :
    ∀ c ∈ chunksOf n l, c.length ≤ n := by
  induction l using chunksOf.induct n with
  | case1 => simp [chunksOf]
  | case2 x xs ih =>
    intro c hc
    rw [chunksOf] at hc
    rcases List.mem_cons.mp hc with rfl | hc
    · exact List.length_take_le n (x :: xs)
    · exact ih c hc

theorem chunksOf_ne_nil (n : Nat) (l : List Nat) :
    ∀ c ∈ chunksOf n l, 0 < n → c ≠ [] := by
  induction l using chunksOf.induct n with
  | case1 => simp [chunksOf]
  | case2 x xs ih =>
    intro c hc hn
    rw [chunksOf] at hc
    rcases List.mem_cons.mp hc with rfl | hc
    · intro hnil
      rcases List.take_eq_nil_iff.mp hnil with h | h
      · omega
      · exact List.cons_ne_nil x xs h
    · exact ih c hc hn

theorem le_getLast_of_sorted :
    ∀ (l : List Nat) (hne : l ≠ []), l.Sorted (· ≤ ·) →
      ∀ x ∈ l, x ≤ l.getLast hne := by
  intro l
  induction l with
  | nil => intro hne; exact absurd rfl hne
  | cons a t ih =>
    intro hne hs x hx
    rcases List.mem_cons.mp hx with rfl | hx
    · cases t with
      | nil => simp [List.getLast]
      | cons b t2 =>
        rw [List.getLast_cons (List.cons_ne_nil b t2)]
        exact (List.sorted_cons.mp hs).1 _ (List.getLast_mem _)
    · cases t with
      | nil => exact absurd hx (List.not_mem_nil x)
      | cons b t2 =>
        rw [List.getLast_cons (List.cons_ne_nil b t2)]
        exact ih (List.cons_ne_nil b t2) (List.sorted_cons.mp hs).2 x hx

theorem le_getLastD_of_sorted (l : List Nat) (hne : l ≠ [])
    (hs : l.Sorted (· ≤ ·)) : ∀ x ∈ l, x ≤ l.getLastD 0 := by
  rw [List.getLastD_eq_getLast?, List.getLast?_eq_getLast l hne, Option.getD_some]
  exact le_getLast_of_sorted l hne hs

theorem getLastD_mem_of_ne_nil (l : List Nat) (hne : l ≠ []) :
    l.getLastD 0 ∈ l := by
  rw [List.getLastD_eq_getLast?, List.getLast?_eq_getLast l hne, Option.getD_some]
  exact List.getLast_mem hne

theorem map_fst_filter_key (q : Nat → Bool) :
    ∀ m : PosMap,
      (m.filter fun kv => q kv.1).map Prod.fst = (m.map Prod.fst).filter q := by
  intro m
  induction m with
  | nil => rfl
  | cons kv rest ih =>
    rcases kv with ⟨d0, ps0⟩
    by_cases h : q d0
    · simp [List.filter_cons, h, ih]
    · simp [List.filter_cons, h, ih]

theorem filter_range_sorted (pre c suf : List Nat) (hc : c ≠ [])
    (hs : (pre ++ (c ++ suf)).Sorted (· < ·)) :
    (pre ++ (c ++ suf)).filter (inSpan c) = c := by
  have hsplit := List.pairwise_append.mp hs
  have hsplit2 := List.pairwise_append.mp hsplit.2.1
  have hcle : c.Sorted (· ≤ ·) := hsplit2.1.imp fun h => le_of_lt h
  rcases List.exists_cons_of_ne_nil hc with ⟨a, cs, rfl⟩
  have hhead : (a :: cs).headD 0 = a := List.headD_cons
  have hheadle : ∀ x ∈ a :: cs, a ≤ x := by
    intro x hx
    rcases List.mem_cons.mp hx with rfl | hx
    · exact le_refl x
    · exact (List.sorted_cons.mp hcle).1 x hx
  have hlastmem : (a :: cs).getLastD 0 ∈ a :: cs :=
    getLastD_mem_of_ne_nil _ (List.cons_ne_nil a cs)
  have hlastle : ∀ x ∈ a :: cs, x ≤ (a :: cs).getLastD 0 :=
    le_getLastD_of_sorted _ (List.cons_ne_nil a cs) hcle
  rw [List.filter_append, List.filter_append]
  have hpre : pre.filter (inSpan (a :: cs)) = [] := by
    rw [List.filter_eq_nil_iff]
    intro z hz
    have hza : z < a := hsplit.2.2 z hz a
      (List.mem_append_left _ (List.mem_cons_self a cs))
    simp only [inSpan, hhead, Bool.and_eq_true, decide_eq_true_eq]
    rintro ⟨h1, _⟩
    omega
  have hcf : (a :: cs).filter (inSpan (a :: cs)) = a :: cs := by
    rw [List.filter_eq_self]
    intro x hx
    simp only [inSpan, hhead, Bool.and_eq_true, decide_eq_true_eq]
    exact ⟨hheadle x hx, hlastle x hx⟩
  have hsuf : suf.filter (inSpan (a :: cs)) = [] := by
    rw [List.filter_eq_nil_iff]
    intro z hz
    have hza : (a :: cs).getLastD 0 < z := hsplit2.2.2 _ hlastmem z hz
    simp only [inSpan, Bool.and_eq_true, decide_eq_true_eq]
    rintro ⟨_, h2⟩
    omega
  rw [hpre, hcf, hsuf, List.nil_append, List.append_nil]

/-- Claim C5: refuted. `persist_block_to_disk` chunks each term's postings in
their current order and does not sort them first: flushing the accumulator
postings `[2, 1, 3]` writes an entry whose postings are `[2, 1, 3]` (not
ascending) and whose positions are the BTreeMap range restriction to
`first..=last = 2..=3` — here the range bounds are ordered, so the code does
not panic, but DocId 1 is silently dropped: the entry's positions are keyed
by `{2, 3}` although 1 is among its postings, refuting both the
sorted-before-chunking clause and the positions-keyset clause. -/
theorem C5_counterexample :
    (persist_term "t" [2, 1, 3] [(1, [0]), (2, [1]), (3, [2])] =
      [⟨"t", 0, 3, [2, 1, 3], [(2, [1]), (3, [2])]⟩]) ∧
    ¬ (([2, 1, 3] : List Nat).Sorted (· < ·)) ∧
    (1 ∈ ([2, 1, 3] : List Nat) ∧
      1 ∉ ([(2, [1]), (3, [2])] : PosMap).map Prod.fst) := by
  have h1 : chunksOf CHUNK [2, 1, 3] = [[2, 1, 3]] := by
    simp only [chunksOf]
    rw [List.take_of_length_le (by decide), List.drop_eq_nil_of_le (by decide)]
    simp only [chunksOf]
  refine ⟨?_, by decide, by decide⟩
  simp only [persist_term, h1]
  decide

/-- Claim C5 (amended): the block flush chunks each term's postings in their
current order without sorting; provided the term's postings are already
strictly ascending (as the standard producer pipeline guarantees) and the
positions map is keyed exactly by the postings in order, every written entry
has strictly ascending (hence unique) postings, `document_frequency` equal to
its postings count, at most CHUNK postings, and a positions map whose key
list is exactly the chunk's DocIds. -/
theorem C5_entries_invariants (t : String) (postings : List Nat)
    (positions : PosMap) (hs : postings.Sorted (· < ·))
    (hk : positions.map Prod.fst = postings) :
    ∀ e ∈ persist_term t postings positions,
      e.postings.Sorted (· < ·) ∧
      e.document_frequency = e.postings.length ∧
      e.postings.length ≤ CHUNK ∧
      e.positions.map Prod.fst = e.postings := by
  intro e he
  simp only [persist_term, List.mem_map] at he
  rcases he with ⟨ic, hic, rfl⟩
  have hc : ic.2 ∈ chunksOf CHUNK postings := List.snd_mem_of_mem_enum hic
  rcases chunksOf_decomp CHUNK postings ic.2 hc with ⟨pre, suf, hdecomp⟩
  have hcne : ic.2 ≠ [] := chunksOf_ne_nil CHUNK postings ic.2 hc (by decide)
  have hsub : ic.2.Sublist postings := by
    rw [hdecomp]
    exact (List.sublist_append_left ic.2 suf).trans
      (List.sublist_append_right pre (ic.2 ++ suf))
  refine ⟨List.Pairwise.sublist hsub hs, rfl,
    chunksOf_length_le CHUNK postings ic.2 hc, ?_⟩
  show (positions.filter fun kv => inSpan ic.2 kv.1).map Prod.fst = ic.2
  rw [map_fst_filter_key (inSpan ic.2) positions, hk, hdecomp]
  exact filter_range_sorted pre ic.2 suf hcne (hdecomp ▸ hs)

/-- Witness for the amended C5 at a concrete input. -/
theorem C5_entries_invariants_witness :
    (([1, 2] : List Nat).Sorted (· < ·)) ∧
    ∀ e ∈ persist_term "t" [1, 2] [(1, [0]), (2, [1])],
      e.postings.Sorted (· < ·) ∧
      e.document_frequency = e.postings.length ∧
      e.postings.length ≤ CHUNK ∧
      e.positions.map Prod.fst = e.postings :=
  ⟨by decide, C5_entries_invariants "t" [1, 2] [(1, [0]), (2, [1])]
    (by decide) (by decide)⟩

/-- Claim C2: refuted by the code (code bug). With an existing last bucket
holding 99999 postings — one under CHUNK, so the merger decides to append
into it — and one merged block entry carrying two new DocIds, the merge run
produces a bucket with 100001 postings, exceeding CHUNK, contradicting the
documented cap of `DOCIDS_PER_MONGO_DOCUMENT` DocIds per index document:
`flush_term_to_db` appends without checking that the new postings fit. -/
theorem C2_append_overflows_chunk (big : List Nat) (hlen : big.length = 99999) :
    ((mergeTermRun (some ⟨0, 99999, big, []⟩)
        [([100001, 100002], [(100001, [0]), (100002, [0])])]).map
      (fun b => b.postings.length)) = [100001] ∧ CHUNK < 100001 := by
  refine ⟨?_, by decide⟩
  simp [mergeTermRun, mergeFinalize, mergeInit, mergeEntryStep,
    flush_term_to_db, append_to_bucket, merge_sorted_lists_dedup,
    merge_hashmaps, upsertAppend, hlen, CHUNK, List.length_append]

/-- Witness for C2 at a concrete input: the existing bucket holds the 99999
DocIds 0..99998. -/
theorem C2_append_overflows_chunk_witness :
    (List.range 99999).length = 99999 ∧
    (((mergeTermRun (some ⟨0, 99999, List.range 99999, []⟩)
        [([100001, 100002], [(100001, [0]), (100002, [0])])]).map
      (fun b => b.postings.length)) = [100001] ∧ CHUNK < 100001) :=
  ⟨List.length_range 99999,
    C2_append_overflows_chunk (List.range 99999) (List.length_range 99999)⟩

theorem filterMap_pos_sublist (f : TextToken → Option TextToken)
    (hf : ∀ t u, f t = some u → u.pos = t.pos) :
    ∀ ts : List TextToken,
      ((ts.filterMap f).map TextToken.pos).Sublist (ts.map TextToken.pos) := by
  intro ts
  induction ts with
  | nil => simp
  | cons t rest ih =>
    rw [List.filterMap_cons]
    cases hft : f t with
    | none =>
      simp only [List.map_cons]
      exact ih.cons _
    | some u =>
      simp only [List.map_cons]
      rw [hf t u hft]
      exact List.Sublist.cons₂ _ ih

/-- Claim C8: the tokenizer assigns each token its enumeration index as its
position, and none of the five token filters changes the position field of a
surviving token — the term-rewriting filters keep the position list unchanged
and the dropping filters keep a subsequence of it — so the positions
surviving the full pipeline are a subsequence of the tokenizer-time indices
0..n-1. -/
theorem C8_positions_preserved (trim lower stem : String → String)
    (hasAlnum hasAlpha isStop : String → Bool) (toks : List String) :
    ((tokenize toks).map TextToken.pos = List.range toks.length) ∧
    (∀ ts : List TextToken,
      (lowerCaseTokenFilter lower ts).map TextToken.pos = ts.map TextToken.pos ∧
      (porterStemmerTokenFilter stem ts).map TextToken.pos = ts.map TextToken.pos ∧
      ((punctuationStripFilter trim 2 hasAlnum ts).map TextToken.pos).Sublist
        (ts.map TextToken.pos) ∧
      ((numericTokenFilter hasAlpha ts).map TextToken.pos).Sublist
        (ts.map TextToken.pos) ∧
      ((stopWordTokenFilter isStop ts).map TextToken.pos).Sublist
        (ts.map TextToken.pos)) ∧
    ((token_filter_pipeline trim lower stem hasAlnum hasAlpha isStop
        (tokenize toks)).map TextToken.pos).Sublist (List.range toks.length) := by
  have htok : (tokenize toks).map TextToken.pos = List.range toks.length := by
    simp only [tokenize, List.map_map]
    exact List.enum_map_fst toks
  have hlower : ∀ (f : String → String) (ts : List TextToken),
      (ts.map fun t => (⟨f t.term, t.pos⟩ : TextToken)).map TextToken.pos =
        ts.map TextToken.pos := by
    intro f ts
    rw [List.map_map]
    rfl
  have hfilter : ∀ (p : TextToken → Bool) (ts : List TextToken),
      ((ts.filter p).map TextToken.pos).Sublist (ts.map TextToken.pos) :=
    fun p ts => (List.filter_sublist ts).map TextToken.pos
  have hpunctpos : ∀ ts : List TextToken,
      ((punctuationStripFilter trim 2 hasAlnum ts).map TextToken.pos).Sublist
        (ts.map TextToken.pos) := by
    intro ts
    refine filterMap_pos_sublist _ ?_ ts
    intro t u hfu
    split at hfu
    · cases hfu
      rfl
    · exact absurd hfu (by simp)
  refine ⟨htok, fun ts => ⟨hlower lower ts, hlower stem ts, hpunctpos ts,
    hfilter _ ts, hfilter _ ts⟩, ?_⟩
  simp only [token_filter_pipeline, porterStemmerTokenFilter,
    stopWordTokenFilter, numericTokenFilter, lowerCaseTokenFilter]
  rw [hlower stem]
  refine List.Sublist.trans (hfilter _ _) ?_
  refine List.Sublist.trans (hfilter _ _) ?_
  rw [hlower lower]
  have hp := hpunctpos (tokenize toks)
  rwa [htok] at hp

theorem upsertRecord_keys (r : IndexRecord) :
    ∀ m : TermMap, (upsertRecord m r).map Prod.fst =
      if r.term ∈ m.map Prod.fst then m.map Prod.fst
      else m.map Prod.fst ++ [r.term] := by
  intro m
  induction m with
  | nil => simp [upsertRecord]
  | cons kv rest ih =>
    rcases kv with ⟨t0, pl0, pos0⟩
    by_cases h : t0 = r.term
    · rw [upsertRecord, if_pos h]
      have hmem : r.term ∈ ((t0, pl0, pos0) :: rest).map Prod.fst := by
        simp [h.symm]
      rw [if_pos hmem]
      simp
    · rw [upsertRecord, if_neg h]
      simp only [List.map_cons, ih]
      by_cases h2 : r.term ∈ rest.map Prod.fst
      · rw [if_pos h2, if_pos (List.mem_cons_of_mem _ h2)]
      · rw [if_neg h2, if_neg (by
          simp only [List.mem_cons]
          rintro (h3 | h3)
          · exact h h3.symm
          · exact h2 h3)]
        simp

theorem buildTermMap_keys (docs : List IndexRecord) :
    ∀ m : TermMap, (m.map Prod.fst).Nodup →
      ((docs.foldl upsertRecord m).map Prod.fst).Nodup ∧
      ∀ t ∈ (docs.foldl upsertRecord m).map Prod.fst,
        t ∈ m.map Prod.fst ∨ ∃ r ∈ docs, r.term = t := by
  induction docs with
  | nil =>
    intro m h
    exact ⟨h, fun t ht => Or.inl ht⟩
  | cons r rest ih =>
    intro m h
    rw [List.foldl_cons]
    have hkeys := upsertRecord_keys r m
    have hnodup : ((upsertRecord m r).map Prod.fst).Nodup := by
      rw [hkeys]
      by_cases hmem : r.term ∈ m.map Prod.fst
      · rw [if_pos hmem]
        exact h
      · rw [if_neg hmem, List.nodup_append]
        exact ⟨h, List.nodup_singleton _, by
          intro a ha hb
          rw [List.mem_singleton] at hb
          exact hmem (hb ▸ ha)⟩
    have hsub : ∀ t ∈ (upsertRecord m r).map Prod.fst,
        t ∈ m.map Prod.fst ∨ t = r.term := by
      intro t ht
      rw [hkeys] at ht
      by_cases hmem : r.term ∈ m.map Prod.fst
      · rw [if_pos hmem] at ht
        exact Or.inl ht
      · rw [if_neg hmem] at ht
        rcases List.mem_append.mp ht with ht | ht
        · exact Or.inl ht
        · exact Or.inr (List.mem_singleton.mp ht)
    rcases ih (upsertRecord m r) hnodup with ⟨ih1, ih2⟩
    refine ⟨ih1, fun t ht => ?_⟩
    rcases ih2 t ht with ht2 | ⟨r2, hr2, hrt⟩
    · rcases hsub t ht2 with h3 | h3
      · exact Or.inl h3
      · exact Or.inr ⟨r, List.mem_cons_self _ _, h3.symm⟩
    · exact Or.inr ⟨r2, List.mem_cons_of_mem _ hr2, hrt⟩

/-- Claim C9: for every query whose analysis yields zero terms, and for every
query with at least one analyzed term absent from the inverted index, the
query operation returns the empty result (totally — no error, no partial
matches). -/
theorem C9_degenerate_empty (terms : List String) (index : List IndexRecord)
    (h : terms = [] ∨ ∃ t ∈ terms, ∀ r ∈ index, r.term ≠ t) :
    query_model terms index = [] := by
  rcases h with rfl | ⟨t, ht, hmiss⟩
  · rfl
  · have hne : terms ≠ [] := List.ne_nil_of_mem ht
    rw [query_model,
      if_neg (by simpa [List.isEmpty_iff] using hne)]
    have hkn := buildTermMap_keys (index.filter fun r => terms.contains r.term)
      [] (by simp)
    have hsubf : ((buildTermMap (index.filter fun r =>
        terms.contains r.term)).map Prod.fst).toFinset ⊆
        terms.toFinset.erase t := by
      intro x hx
      rw [List.mem_toFinset] at hx
      rcases hkn.2 x hx with h0 | ⟨r, hr, hrt⟩
      · exact absurd h0 (List.not_mem_nil x)
      · have hrf := List.mem_filter.mp hr
        have hxterms : x ∈ terms := hrt ▸ List.elem_iff.mp hrf.2
        have hxnet : x ≠ t := hrt ▸ hmiss r hrf.1
        exact Finset.mem_erase.mpr ⟨hxnet, List.mem_toFinset.mpr hxterms⟩
    have hcard : ((buildTermMap (index.filter fun r =>
        terms.contains r.term)).map Prod.fst).toFinset.card =
        ((buildTermMap (index.filter fun r =>
          terms.contains r.term)).map Prod.fst).length :=
      List.toFinset_card_of_nodup hkn.1
    have hle := Finset.card_le_card hsubf
    have herase : (terms.toFinset.erase t).card = terms.toFinset.card - 1 :=
      Finset.card_erase_of_mem (List.mem_toFinset.mpr ht)
    have hpos : 0 < terms.toFinset.card :=
      Finset.card_pos.mpr ⟨t, List.mem_toFinset.mpr ht⟩
    have htf : terms.toFinset.card ≤ terms.length := List.toFinset_card_le terms
    have hmaplen : ((buildTermMap (index.filter fun r =>
        terms.contains r.term)).map Prod.fst).length =
        (buildTermMap (index.filter fun r => terms.contains r.term)).length :=
      List.length_map _ _
    rw [if_pos (by omega)]

/-- Witness for C9 at a concrete input: one query term, empty index. -/
theorem C9_degenerate_empty_witness :
    ((["a"] : List String) = [] ∨ ∃ t ∈ (["a"] : List String),
      ∀ r ∈ ([] : List IndexRecord), r.term ≠ t) ∧
    query_model ["a"] [] = [] :=
  ⟨Or.inr ⟨"a", List.mem_cons_self _ _, fun r hr => absurd hr (List.not_mem_nil r)⟩,
    C9_degenerate_empty ["a"] []
      (Or.inr ⟨"a", List.mem_cons_self _ _, fun r hr => absurd hr (List.not_mem_nil r)⟩)⟩

/-- Claim C10: a query whose analyzed term sequence repeats a term returns the
empty result even when every distinct term has index entries, because the
engine compares the distinct grouped-term count against the duplicated query
term count. -/
theorem C10_duplicate_terms_empty (terms : List String)
    (index : List IndexRecord) (hdup : ¬ terms.Nodup) :
    query_model terms index = [] := by
  have hne : terms ≠ [] := by
    rintro rfl
    exact hdup List.nodup_nil
  rw [query_model, if_neg (by simpa [List.isEmpty_iff] using hne)]
  have hkn := buildTermMap_keys (index.filter fun r => terms.contains r.term)
    [] (by simp)
  have hsubf : ((buildTermMap (index.filter fun r =>
      terms.contains r.term)).map Prod.fst).toFinset ⊆ terms.toFinset := by
    intro x hx
    rw [List.mem_toFinset] at hx
    rcases hkn.2 x hx with h0 | ⟨r, hr, hrt⟩
    · exact absurd h0 (List.not_mem_nil x)
    · have hrf := List.mem_filter.mp hr
      exact List.mem_toFinset.mpr (hrt ▸ List.elem_iff.mp hrf.2)
  have hcard : ((buildTermMap (index.filter fun r =>
      terms.contains r.term)).map Prod.fst).toFinset.card =
      ((buildTermMap (index.filter fun r =>
        terms.contains r.term)).map Prod.fst).length :=
    List.toFinset_card_of_nodup hkn.1
  have hle := Finset.card_le_card hsubf
  have hstrict : terms.toFinset.card < terms.length := by
    rw [List.card_toFinset]
    have hsub := List.dedup_sublist terms
    have hlen := hsub.length_le
    rcases lt_or_eq_of_le hlen with h | h
    · exact h
    · exact absurd ((hsub.eq_of_length h) ▸ List.nodup_dedup terms) hdup
  have hmaplen : ((buildTermMap (index.filter fun r =>
      terms.contains r.term)).map Prod.fst).length =
      (buildTermMap (index.filter fun r => terms.contains r.term)).length :=
    List.length_map _ _
  rw [if_pos (by omega)]

/-- Witness for C10 at a concrete input: the duplicated term has an index
entry, yet the query returns nothing. -/
theorem C10_duplicate_terms_empty_witness :
    (¬ (["a", "a"] : List String).Nodup) ∧
    query_model ["a", "a"] [⟨"a", [1], [(1, [0])]⟩] = [] :=
  ⟨by simp, C10_duplicate_terms_empty ["a", "a"] [⟨"a", [1], [(1, [0])]⟩]
    (by simp)⟩

end Harvest
